import Mathlib

/-!
Verification of the tail-selection engine of `src/tailr/src/main.rs`.

The Rust source is shallowly embedded: machine integers (`i64`, `u64`)
become `Int`/`Nat` with explicit range checks where the source performs
checked conversion; byte streams become `List Nat` (byte values); the
per-file I/O outcomes of the `run` driver become explicit data.
-/

set_option autoImplicit false

/-- Embedding of `enum TakeValue { PlusZero, TakeNum(i64) }`. -/
inductive TakeValue where
  | PlusZero : TakeValue
  | TakeNum : Int → TakeValue
deriving DecidableEq, Repr

/-- ASCII decimal digit test, the character class the checked `i64`
conversion in `parse_num` accepts.  (The Rust regex `\d` is
Unicode-aware, but `i64::from_str` accepts only ASCII digits, so a token
containing a non-ASCII digit is rejected by the source either way — at
the conversion stage there, at the match stage here — and in both cases
the error carries the original token, so the observable behaviour of
`parse_num` is unchanged by this ASCII reading.) -/
def is_digit (c : Char) : Bool := decide (48 ≤ c.toNat ∧ c.toNat ≤ 57)

/-- Numeric value of a most-significant-first decimal digit run, as the
checked string-to-integer conversion computes it. -/
def digitsToNat : List Char → Nat
  | [] => 0
  | c :: cs => (c.toNat - 48) * 10 ^ cs.length + digitsToNat cs

/-- Capture groups of the anchored Rust regex `^([+-])?(\d+)$` applied to
`val`: `none` when the token does not match, otherwise the optional sign
capture and the digit run. -/
def num_captures (val : String) : Option (Option Char × List Char) :=
  match val.data with
  | [] => none
  | c :: rest =>
    if c = '+' ∨ c = '-' then
      if rest ≠ [] ∧ rest.all is_digit then some (some c, rest) else none
    else
      if (c :: rest).all is_digit then some (none, c :: rest) else none

/-- Embedding of `fn parse_num(val: &str) -> MyResult<TakeValue>`: match
the token against `^([+-])?(\d+)$`, default the missing sign to `-`,
convert sign-and-digits with a checked (overflow-rejecting) `i64`
conversion, and map `+0` to `PlusZero`.  Both failure branches of the
source return the original token as the error. -/
def parse_num (val : String) : Except String TakeValue :=
  match num_captures val with
  | some (cap, digits) =>
    let sign : Char := cap.getD '-'
    let n : Int := if sign = '-' then -(digitsToNat digits : Int) else (digitsToNat digits : Int)
    if -(2 ^ 63) ≤ n ∧ n ≤ 2 ^ 63 - 1 then
      if sign = '+' ∧ n = 0 then Except.ok TakeValue.PlusZero
      else Except.ok (TakeValue.TakeNum n)
    else Except.error val
  | none => Except.error val

/-- Embedding of `fn get_start_index(take_val: &TakeValue, total: i64)
-> Option<u64>`.  The `start as u64` cast is `Int.toNat`, taken in the
source only after `start` has been checked non-negative. -/
def get_start_index (take_val : TakeValue) (total : Int) : Option Nat :=
  match take_val with
  | TakeValue.PlusZero => if total > 0 then some 0 else none
  | TakeValue.TakeNum num =>
    if num = 0 ∨ total = 0 ∨ num > total then none
    else
      let start : Int := if num < 0 then total + num else num - 1
      some (if start < 0 then 0 else start.toNat)

/-- Embedding of one `file.read_until(b'\n', &mut buf)` call on the
remaining bytes of the stream: the record read (delimiter included when
found) and the bytes left after it. -/
def read_until_nl : List Nat → List Nat × List Nat
  | [] => ([], [])
  | b :: bs =>
    if b = 10 then ([10], bs)
    else
      let p := read_until_nl bs
      (b :: p.1, p.2)

/-- Decomposition of a byte stream into the successive records the
`read_until` loops of the source traverse: each newline-terminated
record, then a final unterminated fragment when one remains. -/
def records : List Nat → List (List Nat)
  | [] => []
  | b :: bs =>
    (read_until_nl (b :: bs)).1 :: records (read_until_nl (b :: bs)).2
termination_by l => l.length
decreasing_by
  have hle : ∀ l : List Nat, (read_until_nl l).2.length ≤ l.length := by
    intro l
    induction l with
    | nil => exact Nat.le_refl 0
    | cons x xs ih =>
      by_cases hx : x = 10
      · simp [read_until_nl, hx, Nat.le_succ]
      · simp only [read_until_nl, if_neg hx, List.length_cons]
        exact Nat.le_succ_of_le ih
  by_cases hb : b = 10
  · simp [read_until_nl, hb, Nat.lt_succ_self]
  · simp only [read_until_nl, if_neg hb, List.length_cons]
    exact Nat.lt_succ_of_le (hle bs)

/-- Loop of `fn count_lines_bytes`, carrying the `num_lines` and
`num_bytes` accumulators (`i64` in the source, counts of records and
bytes actually read, hence `Nat`). -/
def count_loop : List Nat → Nat → Nat → Nat × Nat
  | [], num_lines, num_bytes => (num_lines, num_bytes)
  | b :: bs, num_lines, num_bytes =>
    count_loop (read_until_nl (b :: bs)).2 (num_lines + 1)
      (num_bytes + (read_until_nl (b :: bs)).1.length)
termination_by l => l.length
decreasing_by
  have hle : ∀ l : List Nat, (read_until_nl l).2.length ≤ l.length := by
    intro l
    induction l with
    | nil => exact Nat.le_refl 0
    | cons x xs ih =>
      by_cases hx : x = 10
      · simp [read_until_nl, hx, Nat.le_succ]
      · simp only [read_until_nl, if_neg hx, List.length_cons]
        exact Nat.le_succ_of_le ih
  by_cases hb : b = 10
  · simp [read_until_nl, hb, Nat.lt_succ_self]
  · simp only [read_until_nl, if_neg hb, List.length_cons]
    exact Nat.lt_succ_of_le (hle bs)

/-- Embedding of `fn count_lines_bytes` on the contents of the file:
repeatedly `read_until` newline, counting one line and `bytes_read`
bytes per record until a zero-length read. -/
def count_lines_bytes (data : List Nat) : Nat × Nat := count_loop data 0 0

/-- Loop of `fn print_lines`: read records, keep the running `line_num`,
and emit each record whose index is at least `start`.  The output sink
is the returned byte list. -/
def print_lines_loop : List Nat → Nat → Nat → List Nat
  | [], _, _ => []
  | b :: bs, start, line_num =>
    (if line_num ≥ start then (read_until_nl (b :: bs)).1 else []) ++
      print_lines_loop (read_until_nl (b :: bs)).2 start (line_num + 1)
termination_by l _ _ => l.length
decreasing_by
  have hle : ∀ l : List Nat, (read_until_nl l).2.length ≤ l.length := by
    intro l
    induction l with
    | nil => exact Nat.le_refl 0
    | cons x xs ih =>
      by_cases hx : x = 10
      · simp [read_until_nl, hx, Nat.le_succ]
      · simp only [read_until_nl, if_neg hx, List.length_cons]
        exact Nat.le_succ_of_le ih
  by_cases hb : b = 10
  · simp [read_until_nl, hb, Nat.lt_succ_self]
  · simp only [read_until_nl, if_neg hb, List.length_cons]
    exact Nat.lt_succ_of_le (hle bs)

/-- Embedding of `fn print_lines(file, num_lines, total_lines)` on the
contents of the file: resolve the start index and run the record loop;
when resolution yields `None` nothing is read or written. -/
def print_lines (data : List Nat) (num_lines : TakeValue) (total_lines : Int) : List Nat :=
  match get_start_index num_lines total_lines with
  | some start => print_lines_loop data start 0
  | none => []

/-- Embedding of `fn print_bytes(file, num_bytes, total_bytes)` on the
contents of the file: resolve the start index, `seek(SeekFrom::Start(start))`
and `read_to_end` — i.e. drop the first `start` bytes and emit the rest
verbatim; when resolution yields `None` nothing is sought or written. -/
def print_bytes (data : List Nat) (num_bytes : TakeValue) (total_bytes : Int) : List Nat :=
  match get_start_index num_bytes total_bytes with
  | some start => data.drop start
  | none => []

/-- Externally determined I/O outcomes for one input file of the `run`
driver: whether `File::open` succeeds, the result of the
`count_lines_bytes` pass, and the result of the streaming pass
(`print_bytes` or `print_lines`), whose payload is the bytes it writes. -/
structure FileIO where
  openOk : Bool
  countRes : Except String (Int × Int)
  streamRes : Except String (List Nat)

/-- Embedding of the loop of `fn run(config)`: per file, an `Err` from
`File::open` is printed and the loop continues; the `?` on
`count_lines_bytes` and on the streamer returns the error from `run`
itself.  The result is the per-file outputs written before `run`
returned, paired with the error it returned, if any. -/
def run : List FileIO → List (List Nat) × Option String
  | [] => ([], none)
  | f :: fs =>
    if f.openOk then
      match f.countRes with
      | Except.error e => ([], some e)
      | Except.ok _ =>
        match f.streamRes with
        | Except.error e => ([], some e)
        | Except.ok out => ((run fs).1.cons out, (run fs).2)
    else run fs

/-- Grammar of the claim: the token matches `[+-]?[0-9]+`, i.e. it is an
optional sign character followed by a nonempty ASCII digit run. -/
def matches_count_grammar (val : String) : Prop :=
  ∃ sign ds, (sign = ([] : List Char) ∨ sign = ['+'] ∨ sign = ['-']) ∧ ds ≠ []
    ∧ (∀ c ∈ ds, is_digit c) ∧ val.data = sign ++ ds

/-- Sign-resolved numeric value of a token: digits after an explicit `+`
count positively, digits after an explicit `-` or after no sign at all
count negatively. -/
def sign_resolved_value (val : String) : Int :=
  match val.data with
  | [] => 0
  | c :: rest =>
    if c = '+' then (digitsToNat rest : Int)
    else if c = '-' then -(digitsToNat rest : Int)
    else -(digitsToNat (c :: rest) : Int)

/-- Range of the signed 64-bit integer type the source converts into. -/
def in_i64_range (n : Int) : Prop := -(2 ^ 63) ≤ n ∧ n ≤ 2 ^ 63 - 1

/-- Line count the spec describes for a byte stream: one line per
newline terminator, plus one more line for a final unterminated
fragment. -/
def spec_line_count (data : List Nat) : Nat :=
  data.count 10 + (if data.getLast? = some 10 ∨ data = [] then 0 else 1)

example : parse_num "3" = Except.ok (TakeValue.TakeNum (-3)) := rfl

example : parse_num "+3" = Except.ok (TakeValue.TakeNum 3) := rfl

example : parse_num "-3" = Except.ok (TakeValue.TakeNum (-3)) := rfl

example : parse_num "0" = Except.ok (TakeValue.TakeNum 0) := rfl

example : parse_num "+0" = Except.ok TakeValue.PlusZero := rfl

example : parse_num "+00" = Except.ok TakeValue.PlusZero := rfl

example : parse_num "3.14" = Except.error "3.14" := rfl

example : parse_num "foo" = Except.error "foo" := rfl

example : parse_num "" = Except.error "" := rfl

example : parse_num "9223372036854775807" = Except.ok (TakeValue.TakeNum (-9223372036854775807)) := rfl

example : parse_num "-9223372036854775808" = Except.ok (TakeValue.TakeNum (-9223372036854775808)) := rfl

example : parse_num "9223372036854775808" = Except.ok (TakeValue.TakeNum (-9223372036854775808)) := rfl

example : parse_num "+9223372036854775807" = Except.ok (TakeValue.TakeNum 9223372036854775807) := rfl

example : parse_num "+9223372036854775808" = Except.error "+9223372036854775808" := rfl

example : parse_num "99999999999999999999" = Except.error "99999999999999999999" := rfl

example : records [65, 10, 66, 67] = [[65, 10], [66, 67]] := by
  simp [records, read_until_nl]

example : count_lines_bytes [65, 10, 66, 67] = (2, 4) := by
  simp [count_lines_bytes, count_loop, read_until_nl]

example : count_lines_bytes [] = (0, 0) := by simp [count_lines_bytes, count_loop]

example : print_lines [65, 10, 66, 10, 67, 10] (TakeValue.TakeNum (-2)) 3 = [66, 10, 67, 10] := by
  simp [print_lines, get_start_index, print_lines_loop, read_until_nl]

example : print_bytes [1, 2, 3, 4, 5, 6, 7] (TakeValue.TakeNum (-5)) 7 = [3, 4, 5, 6, 7] := by
  simp [print_bytes, get_start_index]

example : run [⟨true, Except.error "io", Except.ok []⟩, ⟨true, Except.ok (1, 1), Except.ok [65]⟩]
    = ([], some "io") := rfl

example : get_start_index TakeValue.PlusZero 0 = none := rfl

example : get_start_index TakeValue.PlusZero 1 = some 0 := rfl

example : get_start_index (TakeValue.TakeNum 0) 1 = none := rfl

example : get_start_index (TakeValue.TakeNum 1) 0 = none := rfl

example : get_start_index (TakeValue.TakeNum 2) 1 = none := rfl

example : get_start_index (TakeValue.TakeNum 1) 10 = some 0 := rfl

example : get_start_index (TakeValue.TakeNum (-1)) 10 = some 9 := rfl

example : get_start_index (TakeValue.TakeNum (-20)) 10 = some 0 := rfl

theorem num_captures_nil (val : String) (hd : val.data = []) : num_captures val = none := by
  rw [num_captures, hd]

theorem num_captures_cons (val : String) (c : Char) (rest : List Char)
    (hd : val.data = c :: rest) :
    num_captures val =
      if c = '+' ∨ c = '-' then
        if rest ≠ [] ∧ rest.all is_digit then some (some c, rest) else none
      else
        if (c :: rest).all is_digit then some (none, c :: rest) else none := by
  rw [num_captures, hd]

theorem read_until_nl_append : ∀ l : List Nat, (read_until_nl l).1 ++ (read_until_nl l).2 = l
  | [] => rfl
  | b :: bs => by
    by_cases hb : b = 10
    · simp [read_until_nl, hb]
    · simp only [read_until_nl, if_neg hb, List.cons_append]
      exact congrArg (b :: ·) (read_until_nl_append bs)

theorem is_digit_bounds {c : Char} (h : is_digit c = true) : 48 ≤ c.toNat ∧ c.toNat ≤ 57 :=
  of_decide_eq_true h

theorem is_digit_ne_sign {c : Char} (h : is_digit c = true) : c ≠ '+' ∧ c ≠ '-' := by
  constructor <;> rintro rfl <;> exact absurd h (by decide)

theorem char_eq_zero_of_toNat {c : Char} (h : c.toNat = 48) : c = '0' := by
  have : c.val = '0'.val := by
    apply UInt32.ext
    simpa [Char.toNat] using h
  exact Char.ext this

theorem digitsToNat_eq_zero_iff :
    ∀ ds : List Char, (∀ c ∈ ds, is_digit c) → (digitsToNat ds = 0 ↔ ∀ c ∈ ds, c = '0')
  | [], _ => by simp [digitsToNat]
  | c :: cs, hdig => by
    have hc := is_digit_bounds (hdig c (List.mem_cons_self c cs))
    have ih := digitsToNat_eq_zero_iff cs (fun x hx => hdig x (List.mem_cons_of_mem c hx))
    simp only [digitsToNat, Nat.add_eq_zero, Nat.mul_eq_zero, List.mem_cons]
    constructor
    · rintro ⟨h1, h2⟩ x hx
      rcases hx with rfl | hx
      · rcases h1 with h1 | h1
        · exact char_eq_zero_of_toNat (by omega)
        · exact absurd h1 (pow_ne_zero _ (by omega))
      · exact (ih.mp h2) x hx
    · intro h
      refine ⟨Or.inl ?_, ih.mpr fun x hx => h x (Or.inr hx)⟩
      have hce : c = '0' := h c (Or.inl rfl)
      subst hce
      rfl

theorem digitToNat_all_zero {ds : List Char} (h : ∀ c ∈ ds, c = '0') :
    (∀ c ∈ ds, is_digit c) ∧ digitsToNat ds = 0 := by
  have hdig : ∀ c ∈ ds, is_digit c := by
    intro c hc
    rw [h c hc]
    decide
  exact ⟨hdig, (digitsToNat_eq_zero_iff ds hdig).mpr h⟩

theorem matches_grammar_iff (val : String) :
    matches_count_grammar val ↔ num_captures val ≠ none := by
  cases hd : val.data with
  | nil =>
    constructor
    · rintro ⟨sign, ds, _, hne, _, heq⟩
      rw [hd] at heq
      rcases List.append_eq_nil.mp heq.symm with ⟨_, h2⟩
      exact absurd h2 hne
    · intro h
      exact absurd (num_captures_nil val hd) h
  | cons c rest =>
    rw [num_captures_cons val c rest hd]
    by_cases hsign : c = '+' ∨ c = '-'
    · rw [if_pos hsign]
      constructor
      · rintro ⟨sign, ds, hs, hne, hdig, heq⟩
        rw [hd] at heq
        rcases hs with rfl | rfl | rfl
        · rw [List.nil_append] at heq
          subst heq
          have hcdig : is_digit c := hdig c (List.mem_cons_self c rest)
          rcases hsign with rfl | rfl
          · exact absurd rfl (is_digit_ne_sign hcdig).1
          · exact absurd rfl (is_digit_ne_sign hcdig).2
        · simp only [List.cons_append, List.nil_append] at heq
          injection heq with h1 h2
          subst h2
          rw [if_pos ⟨hne, List.all_eq_true.mpr hdig⟩]
          simp
        · simp only [List.cons_append, List.nil_append] at heq
          injection heq with h1 h2
          subst h2
          rw [if_pos ⟨hne, List.all_eq_true.mpr hdig⟩]
          simp
      · intro h
        split at h
        · rename_i hcond
          refine ⟨[c], rest, ?_, hcond.1, List.all_eq_true.mp hcond.2, by simp [hd]⟩
          rcases hsign with rfl | rfl
          · exact Or.inr (Or.inl rfl)
          · exact Or.inr (Or.inr rfl)
        · exact absurd rfl h
    · rw [if_neg hsign]
      push_neg at hsign
      constructor
      · rintro ⟨sign, ds, hs, hne, hdig, heq⟩
        rw [hd] at heq
        rcases hs with rfl | rfl | rfl
        · rw [List.nil_append] at heq
          subst heq
          rw [if_pos (List.all_eq_true.mpr hdig)]
          simp
        · simp only [List.cons_append, List.nil_append] at heq
          injection heq with h1 h2
          exact absurd h1 hsign.1
        · simp only [List.cons_append, List.nil_append] at heq
          injection heq with h1 h2
          exact absurd h1 hsign.2
      · intro h
        split at h
        · rename_i hcond
          exact ⟨[], c :: rest, Or.inl rfl, by simp, List.all_eq_true.mp hcond, by simp [hd]⟩
        · exact absurd rfl h

theorem num_captures_inv (val : String) (cap : Option Char) (ds : List Char)
    (h : num_captures val = some (cap, ds)) :
    ds ≠ [] ∧ (∀ c ∈ ds, is_digit c) ∧
      ((cap = some '+' ∧ val.data = '+' :: ds) ∨ (cap = some '-' ∧ val.data = '-' :: ds) ∨
        (cap = none ∧ val.data = ds)) := by
  cases hd : val.data with
  | nil => rw [num_captures_nil val hd] at h; exact absurd h (by simp)
  | cons c rest =>
    rw [num_captures_cons val c rest hd] at h
    by_cases hsign : c = '+' ∨ c = '-'
    · rw [if_pos hsign] at h
      split at h
      · rename_i hcond
        simp only [Option.some.injEq, Prod.mk.injEq] at h
        obtain ⟨h1, h2⟩ := h
        subst h1
        subst h2
        refine ⟨hcond.1, List.all_eq_true.mp hcond.2, ?_⟩
        rcases hsign with rfl | rfl
        · exact Or.inl ⟨rfl, rfl⟩
        · exact Or.inr (Or.inl ⟨rfl, rfl⟩)
      · exact absurd h (by simp)
    · rw [if_neg hsign] at h
      split at h
      · rename_i hcond
        simp only [Option.some.injEq, Prod.mk.injEq] at h
        obtain ⟨h1, h2⟩ := h
        subst h1
        subst h2
        exact ⟨by simp, List.all_eq_true.mp hcond, Or.inr (Or.inr ⟨rfl, rfl⟩)⟩
      · exact absurd h (by simp)

theorem parse_num_none (val : String) (h : num_captures val = none) :
    parse_num val = Except.error val := by
  rw [parse_num, h]

theorem parse_num_some (val : String) (cap : Option Char) (ds : List Char) (sign : Char)
    (n : Int) (h : num_captures val = some (cap, ds)) (hsign : sign = cap.getD '-')
    (hn : n = if sign = '-' then -(digitsToNat ds : Int) else (digitsToNat ds : Int)) :
    parse_num val =
      if -(2 ^ 63) ≤ n ∧ n ≤ 2 ^ 63 - 1 then
        if sign = '+' ∧ n = 0 then Except.ok TakeValue.PlusZero
        else Except.ok (TakeValue.TakeNum n)
      else Except.error val := by
  subst hsign
  subst hn
  rw [parse_num, h]

theorem sign_resolved_cons (val : String) (c : Char) (rest : List Char)
    (hd : val.data = c :: rest) :
    sign_resolved_value val =
      if c = '+' then (digitsToNat rest : Int)
      else if c = '-' then -(digitsToNat rest : Int)
      else -(digitsToNat (c :: rest) : Int) := by
  rw [sign_resolved_value, hd]

theorem sign_resolved_of_captures (val : String) (cap : Option Char) (ds : List Char)
    (h : num_captures val = some (cap, ds)) :
    sign_resolved_value val =
      if cap.getD '-' = '-' then -(digitsToNat ds : Int) else (digitsToNat ds : Int) := by
  obtain ⟨hne, hdig, hcase⟩ := num_captures_inv val cap ds h
  rcases hcase with ⟨rfl, hdata⟩ | ⟨rfl, hdata⟩ | ⟨rfl, hdata⟩
  · rw [sign_resolved_cons val '+' ds hdata, if_pos rfl, if_neg (by decide)]
  · rw [sign_resolved_cons val '-' ds hdata, if_neg (by decide), if_pos rfl]
    simp
  · obtain ⟨c, rest, rfl⟩ := List.exists_cons_of_ne_nil hne
    have hcs := is_digit_ne_sign (hdig c (List.mem_cons_self c rest))
    rw [sign_resolved_cons val c rest hdata, if_neg hcs.1, if_neg hcs.2]
    simp

theorem parse_num_zero_token (val : String) (zs : List Char) (hne : zs ≠ [])
    (hzero : ∀ c ∈ zs, c = '0') :
    (val.data = '+' :: zs → parse_num val = Except.ok TakeValue.PlusZero)
    ∧ (val.data = zs → parse_num val = Except.ok (TakeValue.TakeNum 0))
    ∧ (val.data = '-' :: zs → parse_num val = Except.ok (TakeValue.TakeNum 0)) := by
  obtain ⟨hdigz, hvz⟩ := digitToNat_all_zero hzero
  have hall : zs.all is_digit = true := List.all_eq_true.mpr hdigz
  have hvz' : (digitsToNat zs : Int) = 0 := by exact_mod_cast hvz
  refine ⟨?_, ?_, ?_⟩
  · intro hdata
    have hcap : num_captures val = some (some '+', zs) := by
      rw [num_captures_cons val '+' zs hdata, if_pos (Or.inl rfl), if_pos ⟨hne, hall⟩]
    have hpn := parse_num_some val (some '+') zs '+' (digitsToNat zs : Int) hcap rfl (by simp)
    rw [hpn, hvz', if_pos (by decide), if_pos ⟨rfl, rfl⟩]
  · intro hdata
    obtain ⟨c, rest, rfl⟩ := List.exists_cons_of_ne_nil hne
    have hcz : c = '0' := hzero c (List.mem_cons_self c rest)
    subst hcz
    have hcap : num_captures val = some (none, '0' :: rest) := by
      rw [num_captures_cons val '0' rest hdata, if_neg (by decide), if_pos hall]
    have hpn := parse_num_some val none ('0' :: rest) '-'
      (-(digitsToNat ('0' :: rest) : Int)) hcap rfl (by simp)
    rw [hpn, hvz', neg_zero, if_pos (by decide),
      if_neg (by rintro ⟨h, -⟩; exact absurd h (by decide))]
  · intro hdata
    have hcap : num_captures val = some (some '-', zs) := by
      rw [num_captures_cons val '-' zs hdata, if_pos (Or.inr rfl), if_pos ⟨hne, hall⟩]
    have hpn := parse_num_some val (some '-') zs '-'
      (-(digitsToNat zs : Int)) hcap rfl (by simp)
    rw [hpn, hvz', neg_zero, if_pos (by decide),
      if_neg (by rintro ⟨h, -⟩; exact absurd h (by decide))]

theorem read_until_nl_ne_nil (b : Nat) (bs : List Nat) : (read_until_nl (b :: bs)).1 ≠ [] := by
  by_cases hb : b = 10 <;> simp [read_until_nl, hb]

theorem read_until_nl_cases : ∀ l : List Nat,
    ((read_until_nl l).1.count 10 = 1 ∧ (read_until_nl l).1.getLast? = some 10)
    ∨ ((read_until_nl l).1.count 10 = 0 ∧ (read_until_nl l).2 = [])
  | [] => Or.inr ⟨rfl, rfl⟩
  | b :: bs => by
    by_cases hb : b = 10
    · left
      subst hb
      simp [read_until_nl]
    · rcases read_until_nl_cases bs with ⟨hc, hl⟩ | ⟨hc, hr⟩
      · left
        simp only [read_until_nl, if_neg hb]
        refine ⟨by simp [List.count_cons, hc, hb], ?_⟩
        have hq : (read_until_nl bs).1 ≠ [] := by
          intro h
          rw [h] at hl
          simp at hl
        obtain ⟨x, xs, hx⟩ := List.exists_cons_of_ne_nil hq
        rw [hx] at hl
        rw [hx, List.getLast?_cons_cons]
        exact hl
      · right
        simp only [read_until_nl, if_neg hb]
        exact ⟨by simp [List.count_cons, hc, hb], hr⟩

theorem mem_of_getLast?_nl : ∀ {l : List Nat}, l.getLast? = some 10 → (10 : Nat) ∈ l
  | [], h => by simp at h
  | [a], h => by
    rw [List.getLast?_singleton] at h
    injection h with h
    simp [h]
  | _ :: b :: t, h => by
    rw [List.getLast?_cons_cons] at h
    exact List.mem_cons_of_mem _ (mem_of_getLast?_nl h)

theorem spec_line_count_split : ∀ l : List Nat, l ≠ [] →
    spec_line_count l = 1 + spec_line_count (read_until_nl l).2 := by
  intro l hl
  obtain ⟨p1, p2, hp1, hp2⟩ : ∃ p1 p2, (read_until_nl l).1 = p1 ∧ (read_until_nl l).2 = p2 :=
    ⟨_, _, rfl, rfl⟩
  have hne1 : p1 ≠ [] := by
    rw [← hp1]
    cases l with
    | nil => exact absurd rfl hl
    | cons b bs => exact read_until_nl_ne_nil b bs
  have hcases := read_until_nl_cases l
  rw [hp1, hp2] at hcases
  have happ : p1 ++ p2 = l := by
    rw [← hp1, ← hp2]
    exact read_until_nl_append l
  subst happ
  rw [hp2]
  unfold spec_line_count
  rcases hcases with ⟨hc, hl10⟩ | ⟨hc, rfl⟩
  · rw [List.count_append, hc]
    rcases p2 with _ | ⟨x, xs⟩
    · have hgl : (p1 ++ ([] : List Nat)).getLast? = some 10 := by
        rw [List.append_nil]
        exact hl10
      rw [if_pos (Or.inl hgl)]
      simp
    · have hxs : (x :: xs).getLast?.isSome := List.getLast?_isSome.mpr (by simp)
      have hgl : (p1 ++ x :: xs).getLast? = (x :: xs).getLast? := by
        rw [List.getLast?_append]
        exact Option.or_of_isSome hxs
      by_cases ht : (x :: xs).getLast? = some 10
      · rw [if_pos (Or.inl (hgl.trans ht)), if_pos (Or.inl ht)]
        omega
      · rw [if_neg ?_, if_neg ?_]
        · omega
        · rintro (h | h)
          · exact ht h
          · exact List.noConfusion h
        · rintro (h | h)
          · exact ht (hgl.symm.trans h)
          · exact absurd (List.append_eq_nil.mp h).1 hne1
  · rw [List.append_nil]
    have hgl : p1.getLast? ≠ some 10 := by
      intro h
      have hmem : (10 : Nat) ∈ p1 := mem_of_getLast?_nl h
      have := List.count_pos_iff.mpr hmem
      omega
    rw [if_neg ?_]
    · simp [spec_line_count, hc]
    · rintro (h | h)
      · exact hgl h
      · exact hne1 h

theorem count_loop_spec : ∀ (data : List Nat) (a b : Nat),
    count_loop data a b = (a + spec_line_count data, b + data.length) := by
  intro data
  induction data using records.induct with
  | case1 =>
    intro a b
    simp [count_loop, spec_line_count]
  | case2 b bs ih =>
    intro a c
    have hlen : (b :: bs).length
        = (read_until_nl (b :: bs)).1.length + (read_until_nl (b :: bs)).2.length := by
      conv_lhs => rw [← read_until_nl_append (b :: bs)]
      rw [List.length_append]
    rw [count_loop, ih, spec_line_count_split (b :: bs) (by simp), hlen]
    congr 1 <;> omega

theorem records_flatten : ∀ data : List Nat, (records data).flatten = data := by
  intro data
  induction data using records.induct with
  | case1 => rw [records]; rfl
  | case2 b bs ih =>
    rw [records, List.flatten_cons, ih]
    exact read_until_nl_append (b :: bs)

theorem records_length : ∀ data : List Nat, (records data).length = spec_line_count data := by
  intro data
  induction data using records.induct with
  | case1 =>
    rw [records]
    simp [spec_line_count]
  | case2 b bs ih =>
    rw [records, List.length_cons, ih, spec_line_count_split (b :: bs) (by simp)]
    omega

theorem print_lines_loop_spec : ∀ (data : List Nat) (start line_num : Nat),
    print_lines_loop data start line_num
      = (List.drop (start - line_num) (records data)).flatten := by
  intro data
  induction data using records.induct with
  | case1 =>
    intro start ln
    rw [print_lines_loop, records]
    simp
  | case2 b bs ih =>
    intro start ln
    rw [print_lines_loop, records, ih]
    by_cases h : ln ≥ start
    · rw [if_pos h]
      have h1 : start - ln = 0 := by omega
      have h2 : start - (ln + 1) = 0 := by omega
      rw [h1, h2]
      simp
    · rw [if_neg h]
      have h1 : start - ln = (start - (ln + 1)) + 1 := by omega
      rw [h1, List.drop_succ_cons]
      simp

/-- C1: for every `total ≥ 0`, `get_start_index` follows the resolver
rules in order: `SelectAll` (`PlusZero`) gives `Some 0` iff `total > 0`;
`Count 0` gives `None`; `total = 0` gives `None` for any count;
`Count n` with `n > total` gives `None`; `Count n` with `0 < n ≤ total`
gives `Some (n - 1)`; `Count n` with `n < 0` gives `Some (total + n)`
clamped to `Some 0` when `total + n` is negative; and the four concrete
cases of the spec hold. -/
theorem get_start_index_rules (total : Int) (_htot : 0 ≤ total) :
    (get_start_index TakeValue.PlusZero total = if 0 < total then some 0 else none)
    ∧ (get_start_index (TakeValue.TakeNum 0) total = none)
    ∧ (total = 0 → ∀ n : Int, get_start_index (TakeValue.TakeNum n) total = none)
    ∧ (∀ n : Int, n > total → get_start_index (TakeValue.TakeNum n) total = none)
    ∧ (∀ n : Int, 0 < n → n ≤ total → get_start_index (TakeValue.TakeNum n) total
        = some (n - 1).toNat)
    ∧ (∀ n : Int, n < 0 → 0 < total → get_start_index (TakeValue.TakeNum n) total
        = some (if total + n < 0 then 0 else (total + n).toNat))
    ∧ get_start_index (TakeValue.TakeNum 1) 10 = some 0
    ∧ get_start_index (TakeValue.TakeNum (-1)) 10 = some 9
    ∧ get_start_index (TakeValue.TakeNum (-20)) 10 = some 0
    ∧ get_start_index (TakeValue.TakeNum 2) 1 = none := by
  refine ⟨rfl, by simp [get_start_index], ?_, ?_, ?_, ?_, by decide, by decide, by decide,
    by decide⟩
  · intro h n
    simp [get_start_index, h]
  · intro n hn
    have hc : n = 0 ∨ total = 0 ∨ n > total := Or.inr (Or.inr hn)
    simp [get_start_index, hc]
  · intro n hn hn'
    have hc : ¬(n = 0 ∨ total = 0 ∨ n > total) := by omega
    have h1 : ¬ n < 0 := by omega
    simp only [get_start_index, if_neg hc, if_neg h1]
    have h2 : ¬ (n - 1 < 0) := by omega
    rw [if_neg h2]
  · intro n hn ht
    have hc : ¬(n = 0 ∨ total = 0 ∨ n > total) := by omega
    simp only [get_start_index, if_neg hc, if_pos hn]

theorem get_start_index_rules_w :
    get_start_index (TakeValue.TakeNum (-1)) 10 = some (if (10 : Int) + (-1) < 0 then 0
      else ((10 : Int) + (-1)).toNat)
    ∧ get_start_index (TakeValue.TakeNum 2) 10 = some ((2 : Int) - 1).toNat := by
  have h := get_start_index_rules 10 (by decide)
  exact ⟨h.2.2.2.2.2.1 (-1) (by decide) (by decide), h.2.2.2.2.1 2 (by decide) (by decide)⟩

/-- C2 counterexample: on the bare 20-digit token for 10^20 - 1 (whose
negation is below `i64::MIN`) `parse_num` returns an error, not `Count`
of the negated value, and the bare token and its '-'-signed form give
different results (the two errors carry different tokens). -/
theorem parse_num_default_negative_cex :
    parse_num "99999999999999999999" = Except.error "99999999999999999999"
    ∧ parse_num "-99999999999999999999" = Except.error "-99999999999999999999"
    ∧ parse_num "99999999999999999999" ≠ parse_num "-99999999999999999999" := by
  refine ⟨rfl, rfl, ?_⟩
  intro h
  rw [show parse_num "99999999999999999999" = Except.error "99999999999999999999" from rfl,
    show parse_num "-99999999999999999999" = Except.error "-99999999999999999999" from rfl] at h
  exact absurd (Except.error.inj h) (by decide)

/-- C2 (amended): for every bare digit token whose value is at most
`2 ^ 63` — so that the implicitly negated value still fits in `i64` —
parsing the bare token yields `Count` of the negated value and parsing
the explicitly '-'-signed token yields the same result; an explicitly
'+'-signed token with nonzero value at most `2 ^ 63 - 1` yields `Count`
of the positive value. -/
theorem parse_num_default_negative (ds : List Char) (hne : ds ≠ [])
    (hdig : ∀ c ∈ ds, is_digit c) (hbound : (digitsToNat ds : Int) ≤ 2 ^ 63) :
    parse_num (String.mk ds) = Except.ok (TakeValue.TakeNum (-(digitsToNat ds : Int)))
    ∧ parse_num (String.mk ('-' :: ds)) = parse_num (String.mk ds)
    ∧ (0 < digitsToNat ds → (digitsToNat ds : Int) ≤ 2 ^ 63 - 1 →
        parse_num (String.mk ('+' :: ds)) = Except.ok (TakeValue.TakeNum (digitsToNat ds))) := by
  obtain ⟨c, rest, rfl⟩ := List.exists_cons_of_ne_nil hne
  have hcs := is_digit_ne_sign (hdig c (List.mem_cons_self c rest))
  have hall : (c :: rest).all is_digit = true := List.all_eq_true.mpr hdig
  have hcap1 : num_captures (String.mk (c :: rest)) = some (none, c :: rest) := by
    rw [num_captures_cons (String.mk (c :: rest)) c rest rfl, if_neg (by
      rintro (h | h)
      · exact hcs.1 h
      · exact hcs.2 h), if_pos hall]
  have hcap2 : num_captures (String.mk ('-' :: c :: rest)) = some (some '-', c :: rest) := by
    rw [num_captures_cons (String.mk ('-' :: c :: rest)) '-' (c :: rest) rfl,
      if_pos (Or.inr rfl), if_pos ⟨hne, hall⟩]
  have hcap3 : num_captures (String.mk ('+' :: c :: rest)) = some (some '+', c :: rest) := by
    rw [num_captures_cons (String.mk ('+' :: c :: rest)) '+' (c :: rest) rfl,
      if_pos (Or.inl rfl), if_pos ⟨hne, hall⟩]
  have hp1 := parse_num_some (String.mk (c :: rest)) none (c :: rest) '-'
    (-(digitsToNat (c :: rest) : Int)) hcap1 rfl (by simp)
  have hp2 := parse_num_some (String.mk ('-' :: c :: rest)) (some '-') (c :: rest) '-'
    (-(digitsToNat (c :: rest) : Int)) hcap2 rfl (by simp)
  have hp3 := parse_num_some (String.mk ('+' :: c :: rest)) (some '+') (c :: rest) '+'
    ((digitsToNat (c :: rest) : Int)) hcap3 rfl (by simp)
  have hpos : (0 : Int) ≤ (digitsToNat (c :: rest) : Int) := Int.natCast_nonneg _
  have hrange : -(2 ^ 63) ≤ -(digitsToNat (c :: rest) : Int)
      ∧ -(digitsToNat (c :: rest) : Int) ≤ 2 ^ 63 - 1 := by omega
  have hnotplus : ¬('-' = '+' ∧ -(digitsToNat (c :: rest) : Int) = 0) := by
    rintro ⟨h, -⟩
    exact absurd h (by decide)
  have e1 : parse_num (String.mk (c :: rest))
      = Except.ok (TakeValue.TakeNum (-(digitsToNat (c :: rest) : Int))) := by
    rw [hp1, if_pos hrange, if_neg hnotplus]
  have e2 : parse_num (String.mk ('-' :: c :: rest))
      = Except.ok (TakeValue.TakeNum (-(digitsToNat (c :: rest) : Int))) := by
    rw [hp2, if_pos hrange, if_neg hnotplus]
  refine ⟨e1, e2.trans e1.symm, ?_⟩
  intro hp hb
  have hrange3 : -(2 ^ 63) ≤ (digitsToNat (c :: rest) : Int)
      ∧ (digitsToNat (c :: rest) : Int) ≤ 2 ^ 63 - 1 := by omega
  have hnz : ¬('+' = '+' ∧ (digitsToNat (c :: rest) : Int) = 0) := by
    rintro ⟨-, h⟩
    omega
  rw [hp3, if_pos hrange3, if_neg hnz]

theorem parse_num_default_negative_w :
    parse_num "3" = Except.ok (TakeValue.TakeNum (-3))
    ∧ parse_num "-3" = parse_num "3"
    ∧ parse_num "+3" = Except.ok (TakeValue.TakeNum 3) := by
  have h := parse_num_default_negative ['3'] (by decide) (by decide) (by decide)
  exact ⟨h.1, h.2.1, h.2.2 (by decide) (by decide)⟩

/-- C3 counterexample: the accepted token "+00" is not the literal "+0"
yet also parses to `PlusZero`. -/
theorem parse_num_plus_zero_cex :
    parse_num "+00" = Except.ok TakeValue.PlusZero ∧ "+00" ≠ "+0" :=
  ⟨rfl, by decide⟩

/-- C3 (amended): `parse_num` returns `PlusZero` exactly for the tokens
made of '+' followed by a nonempty run of zeros — "+0", "+00", and so
on — and every other accepted zero-valued token, in particular the
bare and the '-'-signed zero runs such as "0" and "-0", parses to
`Count 0`. -/
theorem parse_num_plus_zero_iff (val : String) :
    (parse_num val = Except.ok TakeValue.PlusZero ↔
      ∃ zs : List Char, zs ≠ [] ∧ (∀ c ∈ zs, c = '0') ∧ val.data = '+' :: zs)
    ∧ (∀ zs : List Char, zs ≠ [] → (∀ c ∈ zs, c = '0') →
        val.data = zs ∨ val.data = '-' :: zs →
        parse_num val = Except.ok (TakeValue.TakeNum 0)) := by
  constructor
  · constructor
    · intro he
      cases hcap : num_captures val with
      | none =>
        rw [parse_num_none val hcap] at he
        exact absurd he (by simp)
      | some p =>
        obtain ⟨cap, ds⟩ := p
        obtain ⟨hne, hdig, hcase⟩ := num_captures_inv val cap ds hcap
        rcases hcase with ⟨rfl, hdata⟩ | ⟨rfl, hdata⟩ | ⟨rfl, hdata⟩
        · have hpn := parse_num_some val (some '+') ds '+' ((digitsToNat ds : Int))
            hcap rfl (by simp)
          rw [hpn] at he
          split at he
          · split at he
            · rename_i hcond
              have hz : digitsToNat ds = 0 := by exact_mod_cast hcond.2
              exact ⟨ds, hne, (digitsToNat_eq_zero_iff ds hdig).mp hz, hdata⟩
            · exact absurd he (by simp)
          · exact absurd he (by simp)
        · have hpn := parse_num_some val (some '-') ds '-' (-(digitsToNat ds : Int))
            hcap rfl (by simp)
          rw [hpn] at he
          split at he
          · rw [if_neg (by rintro ⟨h, -⟩; exact absurd h (by decide))] at he
            exact absurd he (by simp)
          · exact absurd he (by simp)
        · have hpn := parse_num_some val none ds '-' (-(digitsToNat ds : Int))
            hcap rfl (by simp)
          rw [hpn] at he
          split at he
          · rw [if_neg (by rintro ⟨h, -⟩; exact absurd h (by decide))] at he
            exact absurd he (by simp)
          · exact absurd he (by simp)
    · rintro ⟨zs, hne, hzero, hdata⟩
      exact (parse_num_zero_token val zs hne hzero).1 hdata
  · intro zs hne hzero hdata
    rcases hdata with hdata | hdata
    · exact (parse_num_zero_token val zs hne hzero).2.1 hdata
    · exact (parse_num_zero_token val zs hne hzero).2.2 hdata

theorem parse_num_plus_zero_iff_w :
    parse_num "+0" = Except.ok TakeValue.PlusZero
    ∧ parse_num "0" = Except.ok (TakeValue.TakeNum 0)
    ∧ parse_num "-0" = Except.ok (TakeValue.TakeNum 0) :=
  ⟨(parse_num_plus_zero_iff "+0").1.mpr ⟨['0'], by decide, by decide, by decide⟩,
    (parse_num_plus_zero_iff "0").2 ['0'] (by decide) (by decide) (Or.inl (by decide)),
    (parse_num_plus_zero_iff "-0").2 ['0'] (by decide) (by decide) (Or.inr (by decide))⟩

/-- C10: for every `total > 0` and every selection, whenever
`get_start_index` returns `some k` we have `k < total`, so a streamer
that runs on data of length `total` has at least one element to emit;
moreover in the negative-count branch the intermediate `total + n`
stays within the signed 64-bit range whenever `n` and `total` do, so
the source computes it without signed overflow. -/
theorem get_start_index_lt_total (tv : TakeValue) (total : Int) (htot : 0 < total) :
    (∀ k : Nat, get_start_index tv total = some k → (k : Int) < total)
    ∧ (∀ n : Int, tv = TakeValue.TakeNum n → n < 0 → -(2 ^ 63) ≤ n → total ≤ 2 ^ 63 - 1 →
        -(2 ^ 63) ≤ total + n ∧ total + n ≤ 2 ^ 63 - 1)
    ∧ (∀ data : List Nat, (data.length : Int) = total →
        ∀ k : Nat, get_start_index tv total = some k → data.drop k ≠ []) := by
  have hlt : ∀ k : Nat, get_start_index tv total = some k → (k : Int) < total := by
    intro k hk
    cases tv with
    | PlusZero =>
      rw [get_start_index, if_pos htot] at hk
      cases hk
      exact_mod_cast htot
    | TakeNum n =>
      rw [get_start_index] at hk
      split at hk
      · exact absurd hk (by simp)
      · rename_i hc
        split at hk
        · cases hk
          split <;> omega
        · cases hk
          split <;> omega
  refine ⟨hlt, ?_, ?_⟩
  · intro n _ hneg _ hbound
    omega
  · intro data hlen k hk h0
    have := hlt k hk
    rw [List.drop_eq_nil_iff] at h0
    omega

theorem get_start_index_lt_total_w :
    get_start_index (TakeValue.TakeNum (-(2 ^ 63))) 10 = some 0 ∧ ((0 : Nat) : Int) < 10 :=
  ⟨by decide, (get_start_index_lt_total (TakeValue.TakeNum (-(2 ^ 63))) 10 (by decide)).1 0
    (by decide)⟩

/-- C4: the digit string of `i64::MAX`, unsigned, parses to `Count` of
`i64::MIN + 1`, and the digit string of `i64::MIN`, with its explicit
minus sign, parses to `Count i64::MIN`; both succeed under the checked
conversion, with no overflow rejection and no wraparound. -/
theorem parse_num_boundary :
    parse_num "9223372036854775807" = Except.ok (TakeValue.TakeNum (-9223372036854775807))
    ∧ parse_num "-9223372036854775808" = Except.ok (TakeValue.TakeNum (-9223372036854775808))
    ∧ (-9223372036854775807 : Int) = -(2 ^ 63) + 1
    ∧ (-9223372036854775808 : Int) = -(2 ^ 63) :=
  ⟨rfl, rfl, by decide, by decide⟩

/-- C5: `parse_num` fails exactly on the tokens that do not match the
grammar `[+-]?[0-9]+` or whose sign-resolved value falls outside the
signed 64-bit range, and every failure carries the original offending
token verbatim as its error value. -/
theorem parse_num_error_iff (val : String) :
    (parse_num val = Except.error val ↔
      ¬ matches_count_grammar val ∨ ¬ in_i64_range (sign_resolved_value val))
    ∧ (∀ e : String, parse_num val = Except.error e → e = val) := by
  cases hcap : num_captures val with
  | none =>
    have hpe := parse_num_none val hcap
    have hng : ¬ matches_count_grammar val := by
      rw [matches_grammar_iff, hcap]
      simp
    refine ⟨⟨fun _ => Or.inl hng, fun _ => hpe⟩, ?_⟩
    intro e he
    rw [hpe] at he
    exact (Except.error.inj he).symm
  | some p =>
    obtain ⟨cap, ds⟩ := p
    have hg : matches_count_grammar val := by
      rw [matches_grammar_iff, hcap]
      simp
    have hsr := sign_resolved_of_captures val cap ds hcap
    have hpn := parse_num_some val cap ds (cap.getD '-')
      (if cap.getD '-' = '-' then -(digitsToNat ds : Int) else (digitsToNat ds : Int))
      hcap rfl rfl
    set n : Int := if cap.getD '-' = '-' then -(digitsToNat ds : Int) else (digitsToNat ds : Int)
      with hn
    refine ⟨⟨?_, ?_⟩, ?_⟩
    · intro he
      rw [hpn] at he
      right
      rw [hsr]
      intro hrange
      unfold in_i64_range at hrange
      rw [if_pos hrange] at he
      split at he <;> exact absurd he (by simp)
    · rintro (h | h)
      · exact absurd hg h
      · rw [hsr] at h
        unfold in_i64_range at h
        rw [hpn, if_neg h]
    · intro e he
      rw [hpn] at he
      split at he
      · split at he <;> exact absurd he (by simp)
      · exact (Except.error.inj he).symm

theorem parse_num_error_iff_w :
    parse_num "3.14" = Except.error "3.14" ∧ parse_num "" = Except.error "" := by
  constructor
  · refine (parse_num_error_iff "3.14").1.mpr (Or.inl ?_)
    rw [matches_grammar_iff]
    decide
  · refine (parse_num_error_iff "").1.mpr (Or.inl ?_)
    rw [matches_grammar_iff]
    decide

/-- C6: on every finite input, `count_lines_bytes` returns the pair of
the line count — one line per newline-terminated record plus one line
for a final unterminated fragment — and the total byte count, every
record contributing its full length, terminator included (the records
flatten back to the exact input); empty input gives `(0, 0)`.  The
embedded function is total: the only failure mode of the source is a
propagated read error. -/
theorem count_lines_bytes_spec (data : List Nat) :
    count_lines_bytes data = (spec_line_count data, data.length)
    ∧ (records data).flatten = data
    ∧ (records data).length = spec_line_count data
    ∧ count_lines_bytes [] = (0, 0) := by
  refine ⟨?_, records_flatten data, records_length data, ?_⟩
  · have h := count_loop_spec data 0 0
    simpa [count_lines_bytes] using h
  · simp [count_lines_bytes, count_loop]

/-- C7: the line streamer writes exactly the terminator-delimited
records whose zero-based index is at least the resolved start offset,
verbatim and in order — its output flattens `List.drop start` of the
record decomposition — and writes nothing when the start offset
resolves to `none`. -/
theorem print_lines_spec (data : List Nat) (tv : TakeValue) (total : Int) :
    print_lines data tv total =
      (match get_start_index tv total with
        | none => ([] : List Nat)
        | some start => (List.drop start (records data)).flatten) := by
  cases h : get_start_index tv total with
  | none => rw [print_lines, h]
  | some s =>
    rw [print_lines, h]
    simpa using print_lines_loop_spec data s 0

/-- C8: the byte streamer emits exactly `data.drop start` — the bytes
from absolute offset `start` to the end, verbatim — when the resolved
start offset is `some start`, and emits nothing when it is `none`; with
selection `Count (-5)` on data of `B ≥ 5` total bytes it emits exactly
the final 5 bytes. -/
theorem print_bytes_spec (data : List Nat) (tv : TakeValue) (total : Int) :
    (get_start_index tv total = none → print_bytes data tv total = [])
    ∧ (∀ s : Nat, get_start_index tv total = some s → print_bytes data tv total = data.drop s)
    ∧ (5 ≤ data.length →
        print_bytes data (TakeValue.TakeNum (-5)) (data.length : Int)
          = data.drop (data.length - 5)
        ∧ (data.drop (data.length - 5)).length = 5) := by
  refine ⟨?_, ?_, ?_⟩
  · intro h
    simp [print_bytes, h]
  · intro s h
    simp [print_bytes, h]
  · intro h5
    have hc : ¬((-5 : Int) = 0 ∨ (data.length : Int) = 0 ∨ (-5 : Int) > (data.length : Int)) := by
      omega
    have hneg : (-5 : Int) < 0 := by decide
    have hge : ¬((data.length : Int) + (-5) < 0) := by omega
    have hs : get_start_index (TakeValue.TakeNum (-5)) (data.length : Int)
        = some (data.length - 5) := by
      simp only [get_start_index, if_neg hc, if_pos hneg, if_neg hge]
      congr 1
      omega
    constructor
    · simp [print_bytes, hs]
    · rw [List.length_drop]
      omega

theorem print_bytes_spec_w :
    print_bytes [1, 2, 3, 4, 5, 6, 7] (TakeValue.TakeNum (-5)) 7 = [3, 4, 5, 6, 7] := by
  have h := ((print_bytes_spec [1, 2, 3, 4, 5, 6, 7] (TakeValue.TakeNum (-5)) 7).2.2
    (by decide)).1
  simpa using h

/-- C9 counterexample: a counting-pass I/O failure on the first of two
files makes `run` return that error at once; the second file — which on
its own would produce output — is never processed, so the engine does
not continue with the remaining files. -/
theorem run_isolation_cex :
    run [⟨true, Except.error "io", Except.ok []⟩, ⟨true, Except.ok (1, 1), Except.ok [65]⟩]
      = ([], some "io")
    ∧ run [⟨true, Except.ok (1, 1), Except.ok [65]⟩] = ([[65]], none) :=
  ⟨rfl, rfl⟩

/-- C9 (amended): an open failure aborts only that file — `run` logs it
and continues with the remaining files — but a read or seek failure in
the counting pass or the streaming pass propagates out of `run` through
`?`, aborting the whole invocation: no remaining file is processed and
no further output is written. -/
theorem run_error_propagation (f : FileIO) (fs : List FileIO) :
    (f.openOk = false → run (f :: fs) = run fs)
    ∧ (∀ e, f.openOk = true → f.countRes = Except.error e → run (f :: fs) = ([], some e))
    ∧ (∀ e t, f.openOk = true → f.countRes = Except.ok t → f.streamRes = Except.error e →
        run (f :: fs) = ([], some e))
    ∧ (∀ t out, f.openOk = true → f.countRes = Except.ok t → f.streamRes = Except.ok out →
        run (f :: fs) = ((run fs).1.cons out, (run fs).2)) := by
  refine ⟨?_, ?_, ?_, ?_⟩
  · intro h
    simp [run, h]
  · intro e h1 h2
    simp [run, h1, h2]
  · intro e t h1 h2 h3
    simp [run, h1, h2, h3]
  · intro t out h1 h2 h3
    simp [run, h1, h2, h3]

theorem run_error_propagation_w :
    run [⟨false, Except.ok (0, 0), Except.ok []⟩, ⟨true, Except.ok (1, 1), Except.ok [65]⟩]
      = run [⟨true, Except.ok (1, 1), Except.ok [65]⟩] :=
  (run_error_propagation ⟨false, Except.ok (0, 0), Except.ok []⟩
    [⟨true, Except.ok (1, 1), Except.ok [65]⟩]).1 rfl
